import Mathlib

set_option linter.unusedVariables false

/-!
Verification of the Tab Shepherd tab-routing engine.

The definitions below are a shallow embedding of the JavaScript source
(`background.js` for the routing core, `options.js` for import/export).
Window identifiers are `Nat`, group names and patterns are `String`,
missing JavaScript values (`undefined`/`null`) are `Option`.  The binding
table (a JavaScript object keyed by stringified window ids) is an
association list with JavaScript-object update semantics (`setB`
overwrites an existing key in place, `deleteB` removes a key, `lookupB`
reads a key).  The browser's regular-expression engine is abstracted by a
`RegexEngine` parameter: `none` models a pattern whose compilation throws
(`new RegExp` failing), `some test` models a compiled case-insensitive
regex together with its `.test` method.
-/

namespace TS

-- ============================================================================
-- Definitions: the shallow embedding of the source
-- ============================================================================

/-- Abstract model of `new RegExp(pattern, "i")` followed by `.test`:
`none` means compilation failed (the `catch` branch), `some test` the
compiled regex. -/
abbrev RegexEngine := String → Option (String → Bool)

/-- A configured group (`{ name, patterns, priority, mode }`). -/
structure Group where
  name : String
  patterns : List String
  priority : Int
  mode : String
deriving DecidableEq, Repr

/-- The persisted configuration (`{ enabled, groups, catchAllWindowId }`). -/
structure Config where
  enabled : Bool
  groups : List Group
  catchAllWindowId : Option Nat
deriving DecidableEq, Repr

/-- A tab as seen by the core (`{ id, windowId, url, title }`); `url` and
`title` are `Option` because Chrome can omit them. -/
structure Tab where
  id : Nat
  windowId : Nat
  url : Option String
  title : Option String
deriving DecidableEq, Repr

/-- A window (`{ id, type }`); `wtype` is the `type` field (`"normal"` or
other). -/
structure Window where
  id : Nat
  wtype : String
deriving DecidableEq, Repr

/-- The binding table `windowId -> groupName`, as an association list with
JavaScript-object key semantics. -/
abbrev Bindings := List (Nat × String)

/-- Reading `bindings[k]`. -/
def lookupB : Bindings → Nat → Option String
  | [], _ => none
  | (w, g) :: rest, k => if w = k then some g else lookupB rest k

/-- `delete bindings[k]`. -/
def deleteB : Bindings → Nat → Bindings
  | [], _ => []
  | (w, g) :: rest, k => if w = k then deleteB rest k else (w, g) :: deleteB rest k

/-- `bindings[k] = v` (overwrite in place if the key exists, else append). -/
def setB : Bindings → Nat → String → Bindings
  | [], k, v => [(k, v)]
  | (w, g) :: rest, k, v =>
    if w = k then (k, v) :: rest else (w, g) :: setB rest k v

/-- `needle` occurs at the start of `hay` (character-level model of a
JavaScript string). -/
def leadMatch : List Char → List Char → Bool
  | [], _ => true
  | _ :: _, [] => false
  | a :: as, b :: bs => a = b && leadMatch as bs

/-- `needle` occurs contiguously somewhere in `hay`. -/
def charsContain (needle : List Char) : List Char → Bool
  | [] => needle.isEmpty
  | b :: bs => leadMatch needle (b :: bs) || charsContain needle bs

/-- JavaScript `hay.includes(needle)`. -/
def jsIncludes (hay needle : String) : Bool :=
  charsContain needle.toList hay.toList

/-- JavaScript `s.toLowerCase()`, modelled characterwise. -/
def jsToLower (s : String) : String :=
  String.mk (s.toList.map Char.toLower)

/-- `matchesPattern(text, pattern, isSimpleMode)` from background.js:
falsy (`none` or empty) text or pattern never matches; simple mode is
case-insensitive substring containment; regex mode runs the compiled
case-insensitive regex and the `catch` branch turns a compilation failure
into `false`. -/
def matchesPattern (re : RegexEngine) (text : Option String) (pattern : String)
    (isSimpleMode : Bool) : Bool :=
  match text with
  | none => false
  | some t =>
    if t = "" || pattern = "" then false
    else if isSimpleMode then
      jsIncludes (jsToLower t) (jsToLower pattern)
    else
      match re pattern with
      | none => false
      | some test => test t

/-- `tabMatchesGroup(url, title, group)`: some pattern of the group matches
the URL or the title, in the group's mode. -/
def tabMatchesGroup (re : RegexEngine) (url title : Option String) (g : Group) : Bool :=
  g.patterns.any (fun p =>
    matchesPattern re url p (g.mode = "simple") ||
    matchesPattern re title p (g.mode = "simple"))

/-- The two match kinds of `getMatchInfo`. -/
inductive MatchType
  | title
  | url
deriving DecidableEq, Repr

/-- The ephemeral result of `getMatchInfo`. -/
structure MatchInfo where
  group : Group
  matchType : MatchType
deriving DecidableEq, Repr

/-- `getMatchInfo(url, title, group)`: the title is tested first, then the
URL. -/
def getMatchInfo (re : RegexEngine) (url title : Option String) (g : Group) :
    Option MatchInfo :=
  if g.patterns.any (fun p => matchesPattern re title p (g.mode = "simple")) then
    some ⟨g, MatchType.title⟩
  else if g.patterns.any (fun p => matchesPattern re url p (g.mode = "simple")) then
    some ⟨g, MatchType.url⟩
  else
    none

/-- Rank used by `findMatchingGroup`'s comparator: title matches sort
before URL matches. -/
def rankOf : MatchType → Nat
  | MatchType.title => 0
  | MatchType.url => 1

/-- Strict lexicographic order on character lists, the model of a
negative `localeCompare` result. -/
def charListLt : List Char → List Char → Bool
  | _, [] => false
  | [], _ :: _ => true
  | a :: as, b :: bs =>
    decide (a < b) || (decide (a = b) && charListLt as bs)

/-- `a.localeCompare(b) < 0`, modelled as codepoint-lexicographic
comparison. -/
def jsStrLt (a b : String) : Bool :=
  charListLt a.toList b.toList

/-- The comparator of `findMatchingGroup` returns a negative number
exactly when `a` sorts strictly before `b`: title before URL, then
`localeCompare` on group names. -/
def miLtB (a b : MatchInfo) : Bool :=
  decide (rankOf a.matchType < rankOf b.matchType) ||
  (decide (rankOf a.matchType = rankOf b.matchType) &&
    jsStrLt a.group.name b.group.name)

/-- One step of the stable sort: insert `m` after every element it does not
strictly precede (ties keep their original relative order, as JavaScript's
`Array.prototype.sort` guarantees). -/
def insertMI (m : MatchInfo) : List MatchInfo → List MatchInfo
  | [] => [m]
  | x :: xs => if miLtB m x then m :: x :: xs else x :: insertMI m xs

/-- Stable sort of the collected matches by the comparator. -/
def sortMIs (l : List MatchInfo) : List MatchInfo :=
  l.foldl (fun acc m => insertMI m acc) []

/-- `findMatchingGroup(url, title)` from background.js, with the
configuration passed explicitly: collect the match info of every group,
sort (title matches first, ties alphabetically by name), return the top
candidate. -/
def findMatchingGroup (re : RegexEngine) (cfg : Config) (url title : Option String) :
    Option Group :=
  if !cfg.enabled then none
  else
    match sortMIs (cfg.groups.filterMap (getMatchInfo re url title)) with
    | [] => none
    | m :: _ => some m.group

/-- `bindWindow(windowId, groupName)` from background.js: delete every
entry that maps a *different* window to `groupName`, then set
`bindings[windowId] = groupName`. -/
def bindWindow (b : Bindings) (windowId : Nat) (groupName : String) : Bindings :=
  let pruned := b.filter (fun e => !(e.2 = groupName && !(e.1 = windowId : Bool) : Bool))
  setB pruned windowId groupName

/-- `unbindWindow(windowId)`. -/
def unbindWindow (b : Bindings) (windowId : Nat) : Bindings :=
  deleteB b windowId

/-- The `bindWindowToGroup` message-handler case: delete every entry
mapping a different window to `groupName` (with `windowId` null,
`parseInt(wid) !== null` is always true, so every entry for `groupName`
is deleted), then set the new entry only when `message.windowId` is
truthy. -/
def bindWindowToGroup (b : Bindings) (windowId : Option Nat) (groupName : String) :
    Bindings :=
  let pruned := b.filter (fun e =>
    !(e.2 = groupName &&
      (match windowId with
       | some w => !(e.1 = w : Bool)
       | none => true) : Bool))
  match windowId with
  | some w => setB pruned w groupName
  | none => pruned

/-- The state the background worker acts on: the live window set, the live
tab set, and the persisted binding table. -/
structure World where
  windows : List Window
  tabs : List Tab
  bindings : Bindings
deriving DecidableEq, Repr

/-- The ids for which `chrome.windows.get` succeeds. -/
def liveWindowIds (ws : List Window) : List Nat :=
  ws.map Window.id

/-- The scan inside `findWindowForGroup`: iterate over a snapshot of the
entries; on a candidate for the group, return it if its window still
exists, otherwise delete the stale entry from the stored table and
continue. -/
def findWFGAux (live : List Nat) (gName : String) :
    List (Nat × String) → Bindings → Option Nat × Bindings
  | [], b => (none, b)
  | (wid, gn) :: rest, b =>
    if gn = gName then
      if wid ∈ live then (some wid, b)
      else findWFGAux live gName rest (deleteB b wid)
    else findWFGAux live gName rest b

/-- `findWindowForGroup(groupName)` from background.js, over the explicit
world state: returns the found window id (or none) together with the
world whose stored bindings have had stale entries removed. -/
def findWindowForGroup (wld : World) (gName : String) : Option Nat × World :=
  let r := findWFGAux (liveWindowIds wld.windows) gName wld.bindings wld.bindings
  (r.1, { wld with bindings := r.2 })

/-- The strict order realised by `findMatchingGroup`'s comparator: a title
match sorts strictly before a URL match, and within the same match kind
names compare lexicographically.  The configured numeric priority does
not occur in it. -/
def miLt (a b : MatchInfo) : Prop :=
  rankOf a.matchType < rankOf b.matchType ∨
  (rankOf a.matchType = rankOf b.matchType ∧
    jsStrLt a.group.name b.group.name = true)

/-- A list whose head (if any) is not strictly preceded by any element. -/
def headMin (l : List MatchInfo) : Prop :=
  ∀ h, l.head? = some h → ∀ m ∈ l, ¬ miLt m h

/-- Renaming-free priority rewrite of a group, used to state that the
resolver ignores configured priorities. -/
def withPriority (f : Group → Int) (g : Group) : Group :=
  { g with priority := f g }

/-- The companion rewrite on match info. -/
def withPriorityMI (f : Group → Int) (mi : MatchInfo) : MatchInfo :=
  ⟨withPriority f mi.group, mi.matchType⟩

/-- `importConfig` from options.js, applied to the already-parsed JSON
value.  `exportConfig` writes `JSON.stringify(currentConfig)` and the
file is parsed back by `JSON.parse`, which is the identity on these
plain records, so a no-mutation round trip feeds the original `Config`
value to this function.  The source validates that every group has a
truthy `name` and an array `patterns` (a parsed `Config` always has the
array), rebuilds each group with `mode: g.mode || 'simple'` and
`priority: g.priority ?? i` (the index fallback never fires on exported
data, where the field is always present), takes `enabled` from
`imported.enabled !== false` and `catchAllWindowId` from
`imported.catchAllWindowId || null`. -/
def importGroup (g : Group) : Group :=
  { name := g.name, patterns := g.patterns,
    mode := if g.mode = "" then "simple" else g.mode,
    priority := g.priority }

def importConfig (imported : Config) : Option Config :=
  if imported.groups.all (fun g => !(g.name = "" : Bool)) then
    some
      { enabled := !(imported.enabled = false : Bool),
        groups := imported.groups.map importGroup,
        catchAllWindowId :=
          match imported.catchAllWindowId with
          | some w => if w = 0 then none else some w
          | none => none }
  else none

/-- A trace event of the batch pass: the start of a group's processing
(mirroring the source's per-group log line) or an actual
`chrome.tabs.move` call. -/
inductive Ev
  | groupStart (name : String)
  | moveTab (tabId : Nat) (targetWindowId : Nat)
deriving DecidableEq, Repr

/-- The value returned by `sortAllTabs` (`{ moved, errors }`); in this
model `chrome.tabs.move` always succeeds, so `errors` stays empty. -/
structure SortResult where
  moved : Nat
  errors : List String
deriving DecidableEq, Repr

/-- JavaScript `s.startsWith(pre)`. -/
def jsStartsWith (s pre : String) : Bool :=
  leadMatch pre.toList s.toList

/-- `chrome.windows.getAll({ populate: true })`: every window paired with
its current tabs. -/
def populate (wld : World) : List (Window × List Tab) :=
  wld.windows.map (fun w => (w, wld.tabs.filter (fun t => decide (t.windowId = w.id))))

/-- The source's skip of falsy, `chrome://` and `chrome-extension://`
URLs. -/
def isInternalUrl : Option String → Bool
  | none => true
  | some u =>
    decide (u = "") || jsStartsWith u "chrome://" || jsStartsWith u "chrome-extension://"

/-- The "tab sits in a window owned by a strictly higher-priority group"
test of `sortAllTabs`: look up the current window's bound group name in
the configuration (first group with that name) and compare priorities. -/
def skipByPriority (cfg : Config) (g : Group) : Option String → Bool
  | none => false
  | some cg =>
    if cg = "" then false
    else
      match cfg.groups.find? (fun h => decide (h.name = cg)) with
      | none => false
      | some h => decide (h.priority < g.priority)

/-- The candidate filter of `sortAllTabs` for one tab of a window with id
`winId`: non-internal URL, matches the group, not already in the window
bound to the group, not protected by a higher-priority owner. -/
def tabIsCandidate (re : RegexEngine) (cfg : Config) (g : Group) (b : Bindings)
    (winId : Nat) (t : Tab) : Bool :=
  !isInternalUrl t.url &&
  tabMatchesGroup re t.url t.title g &&
  !(decide (lookupB b winId = some g.name)) &&
  !(skipByPriority cfg g (lookupB b winId))

/-- The candidate-collection loop of `sortAllTabs`: only windows of type
`"normal"` are scanned. -/
def collectCandidates (re : RegexEngine) (cfg : Config) (g : Group) :
    List (Window × List Tab) → Bindings → List Tab
  | [], _ => []
  | pw :: rest, b =>
    (if pw.1.wtype = "normal" then pw.2.filter (tabIsCandidate re cfg g b pw.1.id)
     else []) ++ collectCandidates re cfg g rest b

/-- `chrome.tabs.get`, as a lookup in the live tab list. -/
def getTab (tabs : List Tab) (tid : Nat) : Option Tab :=
  tabs.find? (fun t => decide (t.id = tid))

/-- `chrome.tabs.move(tid, { windowId: target })`. -/
def moveTabInList (tabs : List Tab) (tid target : Nat) : List Tab :=
  tabs.map (fun t => if t.id = tid then { t with windowId := target } else t)

/-- The per-candidate move loop of `sortAllTabs`: re-resolve the target
window (with its stale-binding cleanup side effect), re-fetch the tab,
and move it when the group has a live target window different from the
tab's current window; with no target window the tab is skipped. -/
def processMoves (g : Group) :
    List Tab → World → Nat → List Ev → World × Nat × List Ev
  | [], wld, moved, evs => (wld, moved, evs)
  | c :: rest, wld, moved, evs =>
    let fr := findWindowForGroup wld g.name
    match getTab fr.2.tabs c.id with
    | none => processMoves g rest fr.2 moved evs
    | some cur =>
      match fr.1 with
      | some tw =>
        if tw ≠ cur.windowId then
          processMoves g rest
            { fr.2 with tabs := moveTabInList fr.2.tabs c.id tw }
            (moved + 1) (evs ++ [Ev.moveTab c.id tw])
        else processMoves g rest fr.2 moved evs
      | none => processMoves g rest fr.2 moved evs

/-- One group's processing: fresh window/binding snapshots, the initial
`findWindowForGroup` call (kept for its cleanup side effect), candidate
collection against the snapshots, then the move loop. -/
def processGroup (re : RegexEngine) (cfg : Config) (g : Group) (wld : World) :
    World × Nat × List Ev :=
  let pws := populate wld
  let b := wld.bindings
  let fr := findWindowForGroup wld g.name
  processMoves g (collectCandidates re cfg g pws b) fr.2 0 []

/-- The outer loop of `sortAllTabs` over the priority-sorted groups. -/
def processGroups (re : RegexEngine) (cfg : Config) :
    List Group → World → Nat → List Ev → SortResult × World × List Ev
  | [], wld, moved, evs => (⟨moved, []⟩, wld, evs)
  | g :: rest, wld, moved, evs =>
    let r := processGroup re cfg g wld
    processGroups re cfg rest r.1 (moved + r.2.1) (evs ++ (Ev.groupStart g.name :: r.2.2))

/-- One step of `[...config.groups].sort((a, b) => a.priority - b.priority)`:
stable insertion (ties keep their original relative order). -/
def insertByPriority (g : Group) : List Group → List Group
  | [] => [g]
  | x :: xs => if g.priority < x.priority then g :: x :: xs else x :: insertByPriority g xs

/-- The stable ascending-priority sort of the group list. -/
def sortGroupsByPriority (gs : List Group) : List Group :=
  gs.foldl (fun acc g => insertByPriority g acc) []

/-- `sortAllTabs()` from background.js over the explicit world state,
returning the `{ moved, errors }` result, the final world, and the event
trace. -/
def sortAllTabs (re : RegexEngine) (cfg : Config) (wld : World) :
    SortResult × World × List Ev :=
  if !cfg.enabled || cfg.groups.isEmpty then (⟨0, []⟩, wld, [])
  else processGroups re cfg (sortGroupsByPriority cfg.groups) wld 0 []

/-- Every tab that matches some enabled group sits in the window bound to
a matched group of strictly smallest configured priority among the groups
the tab matches. -/
def Settled (re : RegexEngine) (cfg : Config) (wld : World) : Prop :=
  ∀ t ∈ wld.tabs, ∀ g ∈ cfg.groups, tabMatchesGroup re t.url t.title g = true →
    ∃ gm ∈ cfg.groups, tabMatchesGroup re t.url t.title gm = true ∧
      lookupB wld.bindings t.windowId = some gm.name ∧
      ∀ g' ∈ cfg.groups, g'.name ≠ gm.name →
        tabMatchesGroup re t.url t.title g' = true → gm.priority < g'.priority

/-- `window.tabs?.some(tab => tab.url && tabMatchesGroup(tab.url, tab.title,
group))` from `rebindWindowsOnStartup`: some tab with a truthy URL matches
the group. -/
def hasMatchingTab (re : RegexEngine) (g : Group) (tabs : List Tab) : Bool :=
  tabs.any (fun t =>
    (match t.url with
     | none => false
     | some u => !(u = "" : Bool)) && tabMatchesGroup re t.url t.title g)

/-- `Object.values(newBindings).includes(groupName)`. -/
def valuesContain (b : Bindings) (g : String) : Bool :=
  b.any (fun e => decide (e.2 = g))

/-- The inner window loop of `rebindWindowsOnStartup` for one group:
skip when the group is already claimed or the window is already claimed;
bind the first window with a matching tab and stop. -/
def rebindScan (re : RegexEngine) (g : Group) :
    List (Window × List Tab) → Bindings → Bindings
  | [], nb => nb
  | pw :: rest, nb =>
    if valuesContain nb g.name then rebindScan re g rest nb
    else if (lookupB nb pw.1.id).isSome then rebindScan re g rest nb
    else if hasMatchingTab re g pw.2 then setB nb pw.1.id g.name
    else rebindScan re g rest nb

/-- The outer group loop of `rebindWindowsOnStartup`, building the new
binding table from scratch. -/
def rebindLoop (re : RegexEngine) :
    List Group → List (Window × List Tab) → Bindings → Bindings
  | [], _, nb => nb
  | g :: gs, pws, nb => rebindLoop re gs pws (rebindScan re g pws nb)

/-- `rebindWindowsOnStartup()` from background.js: with the config
disabled or no groups it returns without touching the stored bindings;
otherwise the freshly built table fully replaces the previous one. -/
def rebindWindowsOnStartup (re : RegexEngine) (cfg : Config) (wld : World) : World :=
  if !cfg.enabled || cfg.groups.isEmpty then wld
  else { wld with bindings := rebindLoop re cfg.groups (populate wld) [] }

/-- Modelled from the spec ("Bind the first window containing at least one
tab whose URL or title matches the group"): the first live window, in
enumeration order, containing a tab with a non-empty URL that matches the
group.  This is the claim's reading, with no already-claimed skip. -/
def firstMatchingWindowId (re : RegexEngine) (g : Group) :
    List (Window × List Tab) → Option Nat
  | [] => none
  | pw :: rest =>
    if hasMatchingTab re g pw.2 then some pw.1.id
    else firstMatchingWindowId re g rest

/-- Modelled from the spec (§4.5): the first window not yet claimed in
the binding set being built that contains a matching tab. -/
def firstUnclaimedMatchingWindowId (re : RegexEngine) (g : Group) (nb : Bindings) :
    List (Window × List Tab) → Option Nat
  | [] => none
  | pw :: rest =>
    if (lookupB nb pw.1.id).isSome then firstUnclaimedMatchingWindowId re g nb rest
    else if hasMatchingTab re g pw.2 then some pw.1.id
    else firstUnclaimedMatchingWindowId re g nb rest

/-- Modelled from the spec (§4.5): process groups in configured order;
skip a group whose name is already claimed; otherwise bind it to the
first not-yet-claimed window with a matching tab, if any. -/
def specAssign (re : RegexEngine) :
    List Group → List (Window × List Tab) → Bindings → Bindings
  | [], _, nb => nb
  | g :: gs, pws, nb =>
    specAssign re gs pws
      (if valuesContain nb g.name then nb
       else
         match firstUnclaimedMatchingWindowId re g nb pws with
         | none => nb
         | some wid => setB nb wid g.name)

-- ============================================================================
-- Theorems
-- ============================================================================

theorem lookupB_setB_self (b : Bindings) (k : Nat) (v : String) :
    lookupB (setB b k v) k = some v := by
  induction b with
  | nil => simp [setB, lookupB]
  | cons e rest ih =>
    by_cases h : e.1 = k
    · simp [setB, h, lookupB]
    · simp [setB, h, lookupB, ih]

theorem lookupB_mem {b : Bindings} {k : Nat} {v : String}
    (h : lookupB b k = some v) : (k, v) ∈ b := by
  induction b with
  | nil => simp [lookupB] at h
  | cons e rest ih =>
    obtain ⟨w, g⟩ := e
    by_cases hk : w = k
    · subst hk
      simp [lookupB] at h
      subst h
      exact List.mem_cons_self _ _
    · simp [lookupB, hk] at h
      exact List.mem_cons_of_mem _ (ih h)

theorem mem_setB {b : Bindings} {k : Nat} {v : String} {e : Nat × String}
    (h : e ∈ setB b k v) : e = (k, v) ∨ e ∈ b := by
  induction b with
  | nil => simp [setB] at h; simp [h]
  | cons x rest ih =>
    by_cases hk : x.1 = k
    · simp [setB, hk] at h
      rcases h with h | h
      · left; exact h
      · right; exact List.mem_cons_of_mem _ h
    · simp [setB, hk] at h
      rcases h with h | h
      · right; simp [h]
      · rcases ih h with h1 | h1
        · left; exact h1
        · right; exact List.mem_cons_of_mem _ h1

/-- C1: For every binding table, window `w` and group name `g`, after
`bindWindow(w, g)` completes, `w` maps to `g` and no window other than
`w` maps to `g` in the resulting table. -/
theorem bindWindow_one_window_per_group (b : Bindings) (w : Nat) (g : String) :
    lookupB (bindWindow b w g) w = some g ∧
    ∀ w' : Nat, w' ≠ w → lookupB (bindWindow b w g) w' ≠ some g := by
  constructor
  · exact lookupB_setB_self _ _ _
  · intro w' hne hlook
    have hmem : (w', g) ∈ bindWindow b w g := lookupB_mem hlook
    unfold bindWindow at hmem
    rcases mem_setB hmem with h | h
    · exact hne (congrArg Prod.fst h)
    · have hkeep := List.of_mem_filter h
      simp at hkeep
      exact hne hkeep

/-- C1 witness: the invariant evaluated on a concrete table where window 2
was previously bound to the same group. -/
theorem bindWindow_one_window_per_group_witness :
    lookupB (bindWindow [(2, "work")] 1 "work") 1 = some "work" ∧
    lookupB (bindWindow [(2, "work")] 1 "work") 2 ≠ some "work" := by
  refine ⟨(bindWindow_one_window_per_group [(2, "work")] 1 "work").1, ?_⟩
  exact (bindWindow_one_window_per_group [(2, "work")] 1 "work").2 2 (by decide)

/-- C10: For every binding table and group name `g`, handling a
`bindWindowToGroup` request whose `windowId` is null produces a table in
which no window maps to `g`, while every entry for a group other than `g`
is unchanged (a null `windowId` acts as an unbind-by-group). -/
theorem bindWindowToGroup_null_unbinds (b : Bindings) (g : String) :
    (∀ w : Nat, lookupB (bindWindowToGroup b none g) w ≠ some g) ∧
    (∀ e : Nat × String, e ∈ bindWindowToGroup b none g ↔ e ∈ b ∧ e.2 ≠ g) := by
  have hfil : bindWindowToGroup b none g = b.filter (fun e => !(e.2 = g : Bool)) := by
    simp [bindWindowToGroup]
  constructor
  · intro w hlook
    have hmem := lookupB_mem hlook
    rw [hfil] at hmem
    have hkeep := List.of_mem_filter hmem
    simp at hkeep
  · intro e
    rw [hfil]
    simp [List.mem_filter]

/-- C10 witness: unbinding group `"work"` by a null `windowId` on a
concrete table. -/
theorem bindWindowToGroup_null_unbinds_witness :
    lookupB (bindWindowToGroup [(1, "work"), (2, "play")] none "work") 1 ≠ some "work" ∧
    ((2, "play") ∈ bindWindowToGroup [(1, "work"), (2, "play")] none "work" ↔
      (2, "play") ∈ ([(1, "work"), (2, "play")] : Bindings) ∧ "play" ≠ "work") :=
  ⟨(bindWindowToGroup_null_unbinds [(1, "work"), (2, "play")] "work").1 1,
   (bindWindowToGroup_null_unbinds [(1, "work"), (2, "play")] "work").2 (2, "play")⟩

theorem leadMatch_iff (n : List Char) :
    ∀ h : List Char, leadMatch n h = true ↔ ∃ rest, h = n ++ rest := by
  induction n with
  | nil =>
    intro h
    simp [leadMatch]
  | cons a as ih =>
    intro h
    cases h with
    | nil =>
      simp [leadMatch]
    | cons b bs =>
      simp only [leadMatch, Bool.and_eq_true, decide_eq_true_eq, ih bs]
      constructor
      · rintro ⟨hab, rest, hrest⟩
        exact ⟨rest, by simp [hab, hrest]⟩
      · rintro ⟨rest, hrest⟩
        simp only [List.cons_append] at hrest
        injection hrest with h1 h2
        exact ⟨h1.symm, rest, h2⟩

theorem charsContain_iff (n : List Char) :
    ∀ h : List Char, charsContain n h = true ↔ ∃ pre post, h = pre ++ n ++ post := by
  intro h
  induction h with
  | nil =>
    simp only [charsContain, List.isEmpty_iff]
    constructor
    · intro hn
      exact ⟨[], [], by simp [hn]⟩
    · rintro ⟨pre, post, hp⟩
      have := List.append_eq_nil.mp (List.append_eq_nil.mp hp.symm).1
      exact this.2
  | cons b bs ih =>
    simp only [charsContain, Bool.or_eq_true, leadMatch_iff, ih]
    constructor
    · rintro (⟨rest, hrest⟩ | ⟨pre, post, hp⟩)
      · exact ⟨[], rest, by simp [hrest]⟩
      · exact ⟨b :: pre, post, by simp [hp]⟩
    · rintro ⟨pre, post, hp⟩
      cases pre with
      | nil =>
        left
        exact ⟨post, by simpa using hp⟩
      | cons c cs =>
        right
        simp only [List.cons_append] at hp
        injection hp with h1 h2
        exact ⟨cs, post, h2⟩

/-- C4: For every text, pattern and mode, `matchesPattern` returns false
(and, being a total function, never throws) when the text is absent or
empty, when the pattern is empty, or when, in regex mode, the pattern
fails to compile; in simple mode a non-empty text matches a non-empty
pattern exactly when the lowercased text contains the lowercased pattern
as a contiguous substring. -/
theorem matchesPattern_contract (re : RegexEngine) :
    (∀ p m, matchesPattern re none p m = false) ∧
    (∀ p m, matchesPattern re (some "") p m = false) ∧
    (∀ t m, matchesPattern re (some t) "" m = false) ∧
    (∀ t p, re p = none → matchesPattern re (some t) p false = false) ∧
    (∀ t p, t ≠ "" → p ≠ "" →
      (matchesPattern re (some t) p true = true ↔
        ∃ pre post, (jsToLower t).toList = pre ++ (jsToLower p).toList ++ post)) := by
  refine ⟨?_, ?_, ?_, ?_, ?_⟩
  · intro p m
    simp [matchesPattern]
  · intro p m
    simp [matchesPattern]
  · intro t m
    simp [matchesPattern]
  · intro t p hre
    by_cases ht : t = ""
    · simp [matchesPattern, ht]
    · simp [matchesPattern, ht, hre]
  · intro t p ht hp
    simp [matchesPattern, ht, hp, jsIncludes, charsContain_iff]

/-- C4 witness: the contract evaluated at concrete inputs (with a regex
engine on which every compilation fails). -/
theorem matchesPattern_contract_witness :
    matchesPattern (fun _ => none) none "abc" true = false ∧
    matchesPattern (fun _ => none) (some "abc") "" true = false ∧
    matchesPattern (fun _ => none) (some "abc") "b" false = false ∧
    matchesPattern (fun _ => none) (some "xabcy") "abc" true = true := by
  refine ⟨(matchesPattern_contract (fun _ => none)).1 "abc" true,
    (matchesPattern_contract (fun _ => none)).2.2.1 "abc" true,
    (matchesPattern_contract (fun _ => none)).2.2.2.1 "abc" "b" rfl,
    ((matchesPattern_contract (fun _ => none)).2.2.2.2 "xabcy" "abc"
      (by decide) (by decide)).mpr ?_⟩
  refine ⟨['x'], ['y'], ?_⟩
  decide

theorem lookupB_deleteB_of_none {b : Bindings} {k : Nat} (k' : Nat)
    (h : lookupB b k = none) : lookupB (deleteB b k') k = none := by
  induction b with
  | nil => rfl
  | cons e rest ih =>
    obtain ⟨w, g⟩ := e
    by_cases hk : w = k
    · subst hk
      simp [lookupB] at h
    · simp only [lookupB, if_neg hk] at h
      by_cases hk' : w = k'
      · simpa [deleteB, hk'] using ih h
      · simpa [deleteB, hk', lookupB, hk] using ih h

theorem lookupB_deleteB_self (b : Bindings) (k : Nat) :
    lookupB (deleteB b k) k = none := by
  induction b with
  | nil => rfl
  | cons e rest ih =>
    obtain ⟨w, g⟩ := e
    by_cases hk : w = k
    · simpa [deleteB, hk] using ih
    · simpa [deleteB, hk, lookupB, hk] using ih

theorem findWFGAux_all_stale (live : List Nat) (g : String) :
    ∀ (entries : List (Nat × String)) (b : Bindings),
      (∀ p ∈ entries, p.2 = g → p.1 ∉ live) →
      (findWFGAux live g entries b).1 = none ∧
      (∀ k, lookupB b k = none → lookupB (findWFGAux live g entries b).2 k = none) ∧
      (∀ k, (k, g) ∈ entries → lookupB (findWFGAux live g entries b).2 k = none) := by
  intro entries
  induction entries with
  | nil =>
    intro b hst
    refine ⟨rfl, fun k hk => hk, fun k hk => absurd hk (by simp)⟩
  | cons e rest ih =>
    intro b hst
    obtain ⟨wid, gn⟩ := e
    by_cases hg : gn = g
    · have hnl : wid ∉ live := hst (wid, gn) (List.mem_cons_self _ _) hg
      have heq : findWFGAux live g ((wid, gn) :: rest) b =
          findWFGAux live g rest (deleteB b wid) := by
        simp [findWFGAux, hg, hnl]
      have ihr := ih (deleteB b wid)
        (fun p hp hpg => hst p (List.mem_cons_of_mem _ hp) hpg)
      refine ⟨by rw [heq]; exact ihr.1, ?_, ?_⟩
      · intro k hk
        rw [heq]
        exact ihr.2.1 k (lookupB_deleteB_of_none wid hk)
      · intro k hk
        rw [heq]
        rcases List.mem_cons.mp hk with hh | hh
        · have hkw : k = wid := congrArg Prod.fst hh
          subst hkw
          exact ihr.2.1 k (lookupB_deleteB_self b k)
        · exact ihr.2.2 k hh
    · have heq : findWFGAux live g ((wid, gn) :: rest) b =
          findWFGAux live g rest b := by
        simp [findWFGAux, hg]
      have ihr := ih b (fun p hp hpg => hst p (List.mem_cons_of_mem _ hp) hpg)
      refine ⟨by rw [heq]; exact ihr.1, ?_, ?_⟩
      · intro k hk
        rw [heq]
        exact ihr.2.1 k hk
      · intro k hk
        rw [heq]
        rcases List.mem_cons.mp hk with hh | hh
        · exact absurd (congrArg Prod.snd hh).symm hg
        · exact ihr.2.2 k hh

/-- C6: For every binding table containing an entry mapping a window `B`
that does not exist in the live window set to group `g`, with no existing
window mapped to `g`, `findWindowForGroup(g)` returns null and deletes
the stale entry from the persisted table as a side effect. -/
theorem findWindowForGroup_stale_cleanup (wld : World) (g : String) (B : Nat)
    (hmem : (B, g) ∈ wld.bindings)
    (hstale : ∀ p ∈ wld.bindings, p.2 = g → p.1 ∉ liveWindowIds wld.windows) :
    (findWindowForGroup wld g).1 = none ∧
    lookupB (findWindowForGroup wld g).2.bindings B = none := by
  have h := findWFGAux_all_stale (liveWindowIds wld.windows) g wld.bindings
    wld.bindings hstale
  exact ⟨h.1, h.2.2 B hmem⟩

/-- C6 witness: a table binding the non-existent window 3 to `"dev"`
while the only live window is 7. -/
theorem findWindowForGroup_stale_cleanup_witness :
    (findWindowForGroup ⟨[⟨7, "normal"⟩], [], [(3, "dev")]⟩ "dev").1 = none ∧
    lookupB (findWindowForGroup ⟨[⟨7, "normal"⟩], [], [(3, "dev")]⟩ "dev").2.bindings 3
      = none :=
  findWindowForGroup_stale_cleanup ⟨[⟨7, "normal"⟩], [], [(3, "dev")]⟩ "dev" 3
    (by decide) (by decide)

theorem charListLt_irrefl : ∀ l : List Char, charListLt l l = false := by
  intro l
  induction l with
  | nil => rfl
  | cons a as ih => simp [charListLt, ih]

theorem charListLt_trans : ∀ {x y z : List Char},
    charListLt x y = true → charListLt y z = true → charListLt x z = true := by
  intro x
  induction x with
  | nil =>
    intro y z h1 h2
    cases y with
    | nil => simp [charListLt] at h1
    | cons b bs =>
      cases z with
      | nil => simp [charListLt] at h2
      | cons c cs => rfl
  | cons a as ih =>
    intro y z h1 h2
    cases y with
    | nil => simp [charListLt] at h1
    | cons b bs =>
      cases z with
      | nil => simp [charListLt] at h2
      | cons c cs =>
        simp only [charListLt, Bool.or_eq_true, Bool.and_eq_true,
          decide_eq_true_eq] at h1 h2 ⊢
        rcases h1 with h1 | ⟨h1e, h1r⟩
        · rcases h2 with h2 | ⟨h2e, h2r⟩
          · exact Or.inl (lt_trans h1 h2)
          · exact Or.inl (h2e ▸ h1)
        · rcases h2 with h2 | ⟨h2e, h2r⟩
          · exact Or.inl (h1e ▸ h2)
          · exact Or.inr ⟨h1e.trans h2e, ih h1r h2r⟩

theorem miLtB_iff (a b : MatchInfo) : miLtB a b = true ↔ miLt a b := by
  simp [miLtB, miLt]

theorem miLt_irrefl (a : MatchInfo) : ¬ miLt a a := by
  simp [miLt, jsStrLt, charListLt_irrefl]

theorem miLt_trans {a b c : MatchInfo} (h1 : miLt a b) (h2 : miLt b c) : miLt a c := by
  rcases h1 with h1 | ⟨h1e, h1n⟩
  · rcases h2 with h2 | ⟨h2e, h2n⟩
    · exact Or.inl (Nat.lt_trans h1 h2)
    · exact Or.inl (h2e ▸ h1)
  · rcases h2 with h2 | ⟨h2e, h2n⟩
    · exact Or.inl (h1e ▸ h2)
    · exact Or.inr ⟨h1e.trans h2e, charListLt_trans h1n h2n⟩

theorem mem_insertMI {a m : MatchInfo} {l : List MatchInfo} :
    a ∈ insertMI m l ↔ a = m ∨ a ∈ l := by
  induction l with
  | nil => simp [insertMI]
  | cons x xs ih =>
    by_cases h : miLtB m x
    · simp [insertMI, h]
    · simp only [insertMI, if_neg h, List.mem_cons, ih]
      tauto

theorem length_insertMI (m : MatchInfo) (l : List MatchInfo) :
    (insertMI m l).length = l.length + 1 := by
  induction l with
  | nil => simp [insertMI]
  | cons x xs ih =>
    by_cases h : miLtB m x
    · simp [insertMI, h]
    · simp [insertMI, h, ih]

theorem headMin_insertMI {x : MatchInfo} {l : List MatchInfo} (hl : headMin l) :
    headMin (insertMI x l) := by
  cases l with
  | nil =>
    intro h hh m hm
    simp [insertMI] at hh hm
    subst hh
    subst hm
    exact miLt_irrefl _
  | cons y ys =>
    by_cases hxy : miLtB x y
    · intro h hh m hm
      simp only [insertMI, if_pos hxy, List.head?] at hh
      injection hh with hh
      subst hh
      simp only [insertMI, if_pos hxy] at hm
      rcases List.mem_cons.mp hm with hm | hm
      · subst hm; exact miLt_irrefl _
      · intro hlt
        have hxyP : miLt x y := (miLtB_iff _ _).mp hxy
        have hmy : miLt m y := miLt_trans hlt hxyP
        exact hl y rfl m hm hmy
    · intro h hh m hm
      simp only [insertMI, if_neg hxy, List.head?] at hh
      injection hh with hh
      subst hh
      simp only [insertMI, if_neg hxy] at hm
      rcases List.mem_cons.mp hm with hm | hm
      · subst hm; exact miLt_irrefl _
      · rcases mem_insertMI.mp hm with hm | hm
        · subst hm
          intro hlt
          exact hxy ((miLtB_iff _ _).mpr hlt)
        · exact hl y rfl m (List.mem_cons_of_mem _ hm)

theorem sortMIs_go_mem (l : List MatchInfo) :
    ∀ (acc : List MatchInfo) (a : MatchInfo),
      a ∈ List.foldl (fun acc m => insertMI m acc) acc l ↔ a ∈ acc ∨ a ∈ l := by
  induction l with
  | nil => intro acc a; simp
  | cons x xs ih =>
    intro acc a
    simp only [List.foldl_cons, ih, mem_insertMI, List.mem_cons]
    tauto

theorem sortMIs_go_length (l : List MatchInfo) :
    ∀ acc : List MatchInfo,
      (List.foldl (fun acc m => insertMI m acc) acc l).length = acc.length + l.length := by
  induction l with
  | nil => intro acc; simp
  | cons x xs ih =>
    intro acc
    simp only [List.foldl_cons, ih, length_insertMI, List.length_cons]
    omega

theorem sortMIs_go_headMin (l : List MatchInfo) :
    ∀ acc : List MatchInfo, headMin acc →
      headMin (List.foldl (fun acc m => insertMI m acc) acc l) := by
  induction l with
  | nil => intro acc h; exact h
  | cons x xs ih =>
    intro acc h
    exact ih _ (headMin_insertMI h)

theorem sortMIs_mem {a : MatchInfo} {l : List MatchInfo} :
    a ∈ sortMIs l ↔ a ∈ l := by
  unfold sortMIs
  rw [sortMIs_go_mem]
  simp

theorem sortMIs_headMin (l : List MatchInfo) : headMin (sortMIs l) :=
  sortMIs_go_headMin l [] (by intro h hh m hm; simp at hh)

theorem sortMIs_eq_nil_iff (l : List MatchInfo) : sortMIs l = [] ↔ l = [] := by
  constructor
  · intro h
    have hlen := sortMIs_go_length l []
    unfold sortMIs at h
    rw [h] at hlen
    simp at hlen
    exact List.length_eq_zero.mp hlen.symm
  · intro h
    subst h
    rfl

theorem getMatchInfo_withPriority (re : RegexEngine) (url title : Option String)
    (f : Group → Int) (g : Group) :
    getMatchInfo re url title (withPriority f g) =
      (getMatchInfo re url title g).map (withPriorityMI f) := by
  simp only [getMatchInfo, withPriority]
  by_cases ht : g.patterns.any (fun p => matchesPattern re title p (g.mode = "simple"))
  · simp [ht, withPriorityMI, withPriority]
  · by_cases hu : g.patterns.any (fun p => matchesPattern re url p (g.mode = "simple"))
    · simp [ht, hu, withPriorityMI, withPriority]
    · simp [ht, hu]

theorem miLtB_withPriority (f : Group → Int) (a b : MatchInfo) :
    miLtB (withPriorityMI f a) (withPriorityMI f b) = miLtB a b := by
  simp [miLtB, withPriorityMI, withPriority]

theorem insertMI_withPriority (f : Group → Int) (m : MatchInfo) (l : List MatchInfo) :
    insertMI (withPriorityMI f m) (l.map (withPriorityMI f)) =
      (insertMI m l).map (withPriorityMI f) := by
  induction l with
  | nil => simp [insertMI]
  | cons x xs ih =>
    by_cases h : miLtB m x
    · simp [insertMI, miLtB_withPriority, h]
    · simp [insertMI, miLtB_withPriority, h, ih]

theorem sortMIs_withPriority (f : Group → Int) (l : List MatchInfo) :
    sortMIs (l.map (withPriorityMI f)) = (sortMIs l).map (withPriorityMI f) := by
  unfold sortMIs
  suffices hgen : ∀ acc : List MatchInfo,
      List.foldl (fun acc m => insertMI m acc) (acc.map (withPriorityMI f))
        (l.map (withPriorityMI f)) =
      (List.foldl (fun acc m => insertMI m acc) acc l).map (withPriorityMI f) by
    simpa using hgen []
  induction l with
  | nil => intro acc; simp
  | cons x xs ih =>
    intro acc
    simp only [List.map_cons, List.foldl_cons]
    rw [insertMI_withPriority, ih]

/-- C3: For every URL, title and group list, the resolver
`findMatchingGroup` under the title-priority policy returns none when no
group matches (or the config is disabled); otherwise it returns a group
whose match info is minimal in the order "every title match outranks
every URL match, ties broken alphabetically by name"; and the result is
invariant under arbitrary rewriting of the configured numeric
priorities. -/
theorem findMatchingGroup_title_policy (re : RegexEngine) (cfg : Config)
    (url title : Option String) :
    (findMatchingGroup re cfg url title = none ↔
      cfg.enabled = false ∨ cfg.groups.filterMap (getMatchInfo re url title) = []) ∧
    (∀ g : Group, findMatchingGroup re cfg url title = some g →
      ∃ mi ∈ cfg.groups.filterMap (getMatchInfo re url title),
        mi.group = g ∧
        ∀ m ∈ cfg.groups.filterMap (getMatchInfo re url title), ¬ miLt m mi) ∧
    (∀ f : Group → Int,
      findMatchingGroup re
        { cfg with groups := cfg.groups.map (withPriority f) } url title =
      (findMatchingGroup re cfg url title).map (withPriority f)) := by
  refine ⟨?_, ?_, ?_⟩
  · by_cases he : cfg.enabled
    · simp only [findMatchingGroup, he, Bool.not_true, Bool.false_eq_true,
        if_false]
      cases hs : sortMIs (cfg.groups.filterMap (getMatchInfo re url title)) with
      | nil =>
        simp [he, (sortMIs_eq_nil_iff _).mp hs]
      | cons m rest =>
        have : cfg.groups.filterMap (getMatchInfo re url title) ≠ [] := by
          intro hnil
          rw [hnil] at hs
          simp [sortMIs] at hs
        simp [he, this]
    · simp only [Bool.not_eq_true] at he
      simp [findMatchingGroup, he]
  · intro g hg
    unfold findMatchingGroup at hg
    by_cases he : cfg.enabled
    · simp only [he, Bool.not_true, Bool.false_eq_true, if_false] at hg
      cases hs : sortMIs (cfg.groups.filterMap (getMatchInfo re url title)) with
      | nil => rw [hs] at hg; simp at hg
      | cons m rest =>
        rw [hs] at hg
        simp only [Option.some.injEq] at hg
        refine ⟨m, ?_, hg, ?_⟩
        · exact sortMIs_mem.mp (hs ▸ List.mem_cons_self m rest)
        · intro m' hm'
          have hmin := sortMIs_headMin (cfg.groups.filterMap (getMatchInfo re url title))
          exact hmin m (by rw [hs]; rfl) m' (sortMIs_mem.mpr hm')
    · simp only [Bool.not_eq_true] at he
      simp [he] at hg
  · intro f
    have hmaps : (cfg.groups.map (withPriority f)).filterMap (getMatchInfo re url title) =
        (cfg.groups.filterMap (getMatchInfo re url title)).map (withPriorityMI f) := by
      rw [List.filterMap_map, List.map_filterMap]
      apply List.filterMap_congr
      intro g hgmem
      simp [Function.comp, getMatchInfo_withPriority]
    simp only [findMatchingGroup, hmaps, sortMIs_withPriority]
    cases sortMIs (cfg.groups.filterMap (getMatchInfo re url title)) with
    | nil => simp
    | cons m rest =>
      by_cases he : cfg.enabled
      · simp [he, withPriorityMI]
      · simp only [Bool.not_eq_true] at he
        simp [he]

/-- C3 witness: two groups both matching the title `"t"`; the tie is
broken alphabetically, so `"alpha"` wins even though `"beta"` has the
better configured priority. -/
theorem findMatchingGroup_title_policy_witness :
    ∃ mi ∈ (Config.mk true [⟨"beta", ["t"], 0, "simple"⟩, ⟨"alpha", ["t"], 9, "simple"⟩]
        none).groups.filterMap (getMatchInfo (fun _ => none) none (some "t")),
      mi.group = ⟨"alpha", ["t"], 9, "simple"⟩ ∧
      ∀ m ∈ (Config.mk true [⟨"beta", ["t"], 0, "simple"⟩, ⟨"alpha", ["t"], 9, "simple"⟩]
          none).groups.filterMap (getMatchInfo (fun _ => none) none (some "t")),
        ¬ miLt m mi :=
  (findMatchingGroup_title_policy (fun _ => none)
    (Config.mk true [⟨"beta", ["t"], 0, "simple"⟩, ⟨"alpha", ["t"], 9, "simple"⟩] none)
    none (some "t")).2.1 ⟨"alpha", ["t"], 9, "simple"⟩ (by decide)

/-- C8: For every valid `Config` (non-empty group names and modes, no
falsy catch-all id), exporting it and re-importing the exported data
with no mutation in between yields the very same group list: same names,
same patterns, same modes, and the same priorities, hence the original
priority order. -/
theorem importConfig_round_trip (cfg : Config)
    (hname : ∀ g ∈ cfg.groups, g.name ≠ "")
    (hmode : ∀ g ∈ cfg.groups, g.mode ≠ "")
    (hcatch : cfg.catchAllWindowId ≠ some 0) :
    importConfig cfg = some cfg := by
  obtain ⟨en, gs, ca⟩ := cfg
  have hall : gs.all (fun g => !(g.name = "" : Bool)) = true := by
    rw [List.all_eq_true]
    intro g hg
    simpa using hname g hg
  have hmap : gs.map importGroup = gs := by
    have hcongr : ∀ g ∈ gs, importGroup g = g := by
      intro g hg
      obtain ⟨n, ps, pr, md⟩ := g
      have hmd : md ≠ "" := hmode _ hg
      simp [importGroup, hmd]
    rw [List.map_congr_left hcongr]
    exact List.map_id gs
  simp only [importConfig, hall, if_true, hmap]
  rcases ca with _ | w
  · cases en <;> simp
  · have hw : w ≠ 0 := by simpa using hcatch
    cases en <;> simp [hw]

/-- C8 witness: the round trip on a small concrete configuration. -/
theorem importConfig_round_trip_witness :
    importConfig
      (Config.mk true [⟨"dev", ["localhost"], 0, "simple"⟩,
        ⟨"gh", ["github\\.com"], 1, "regex"⟩] (some 4)) =
    some (Config.mk true [⟨"dev", ["localhost"], 0, "simple"⟩,
      ⟨"gh", ["github\\.com"], 1, "regex"⟩] (some 4)) :=
  importConfig_round_trip _ (by decide) (by decide) (by decide)

theorem mem_insertByPriority {a g : Group} {l : List Group} :
    a ∈ insertByPriority g l ↔ a = g ∨ a ∈ l := by
  induction l with
  | nil => simp [insertByPriority]
  | cons x xs ih =>
    by_cases h : g.priority < x.priority
    · simp [insertByPriority, h]
    · simp only [insertByPriority, if_neg h, List.mem_cons, ih]
      tauto

theorem insertByPriority_perm (g : Group) (l : List Group) :
    (insertByPriority g l).Perm (g :: l) := by
  induction l with
  | nil => simp [insertByPriority]
  | cons x xs ih =>
    by_cases h : g.priority < x.priority
    · simp [insertByPriority, h]
    · simp only [insertByPriority, if_neg h]
      exact (ih.cons x).trans (List.Perm.swap g x xs)

theorem insertByPriority_pairwise {g : Group} {l : List Group}
    (hl : List.Pairwise (fun a b : Group => a.priority ≤ b.priority) l) :
    List.Pairwise (fun a b : Group => a.priority ≤ b.priority) (insertByPriority g l) := by
  induction l with
  | nil => simp [insertByPriority]
  | cons x xs ih =>
    rcases List.pairwise_cons.mp hl with ⟨hx, hxs⟩
    by_cases h : g.priority < x.priority
    · rw [insertByPriority, if_pos h]
      refine List.pairwise_cons.mpr ⟨?_, hl⟩
      intro a ha
      rcases List.mem_cons.mp ha with ha | ha
      · exact le_of_lt (ha ▸ h)
      · exact le_trans (le_of_lt h) (hx a ha)
    · rw [insertByPriority, if_neg h]
      refine List.pairwise_cons.mpr ⟨?_, ih hxs⟩
      intro a ha
      rcases mem_insertByPriority.mp ha with ha | ha
      · exact ha ▸ le_of_not_lt h
      · exact hx a ha

theorem sortGroupsByPriority_go_perm (l : List Group) :
    ∀ acc : List Group,
      (List.foldl (fun acc g => insertByPriority g acc) acc l).Perm (acc ++ l) := by
  induction l with
  | nil => intro acc; simp
  | cons x xs ih =>
    intro acc
    refine (ih (insertByPriority x acc)).trans ?_
    refine (List.Perm.append_right xs ((insertByPriority_perm x acc))).trans ?_
    simpa using List.perm_middle.symm

theorem sortGroupsByPriority_perm (gs : List Group) :
    (sortGroupsByPriority gs).Perm gs := by
  simpa using sortGroupsByPriority_go_perm gs []

theorem sortGroupsByPriority_pairwise (gs : List Group) :
    List.Pairwise (fun a b : Group => a.priority ≤ b.priority)
      (sortGroupsByPriority gs) := by
  unfold sortGroupsByPriority
  suffices hgen : ∀ acc : List Group,
      List.Pairwise (fun a b : Group => a.priority ≤ b.priority) acc →
      List.Pairwise (fun a b : Group => a.priority ≤ b.priority)
        (List.foldl (fun acc g => insertByPriority g acc) acc gs) from
    hgen [] (by simp)
  induction gs with
  | nil => intro acc h; exact h
  | cons x xs ih =>
    intro acc h
    exact ih _ (insertByPriority_pairwise h)

theorem processGroups_trace (re : RegexEngine) (cfg : Config) :
    ∀ (gs : List Group) (wld : World) (m : Nat) (evs : List Ev),
      ∃ segs : List (List Ev), segs.length = gs.length ∧
        (processGroups re cfg gs wld m evs).2.2 =
          evs ++ (List.zipWith (fun (g : Group) (s : List Ev) =>
            Ev.groupStart g.name :: s) gs segs).flatten := by
  intro gs
  induction gs with
  | nil =>
    intro wld m evs
    exact ⟨[], rfl, by simp [processGroups]⟩
  | cons g rest ih =>
    intro wld m evs
    obtain ⟨segs, hlen, htr⟩ := ih (processGroup re cfg g wld).1
      (m + (processGroup re cfg g wld).2.1)
      (evs ++ (Ev.groupStart g.name :: (processGroup re cfg g wld).2.2))
    refine ⟨(processGroup re cfg g wld).2.2 :: segs, by simp [hlen], ?_⟩
    simp only [processGroups]
    rw [htr]
    simp

/-- C9: For every config with `enabled = true` and a non-empty group
list, `sortAllTabs` processes the groups in ascending numeric priority
order — the processed sequence is a permutation of the configured groups
sorted by priority — and the event trace decomposes into one contiguous
segment per group in that order, so all moves attempted for one group
precede the start of the next group's processing. -/
theorem sortAllTabs_priority_order (re : RegexEngine) (cfg : Config) (wld : World)
    (hen : cfg.enabled = true) (hne : cfg.groups ≠ []) :
    List.Pairwise (fun a b : Group => a.priority ≤ b.priority)
      (sortGroupsByPriority cfg.groups) ∧
    (sortGroupsByPriority cfg.groups).Perm cfg.groups ∧
    ∃ segs : List (List Ev), segs.length = (sortGroupsByPriority cfg.groups).length ∧
      (sortAllTabs re cfg wld).2.2 =
        (List.zipWith (fun (g : Group) (s : List Ev) => Ev.groupStart g.name :: s)
          (sortGroupsByPriority cfg.groups) segs).flatten := by
  have hemp : cfg.groups.isEmpty = false := by
    cases hgs : cfg.groups with
    | nil => exact absurd hgs hne
    | cons a l => simp
  refine ⟨sortGroupsByPriority_pairwise cfg.groups, sortGroupsByPriority_perm cfg.groups, ?_⟩
  obtain ⟨segs, hlen, htr⟩ := processGroups_trace re cfg (sortGroupsByPriority cfg.groups)
    wld 0 []
  refine ⟨segs, hlen, ?_⟩
  simp only [sortAllTabs, hen, hemp, Bool.not_true, Bool.false_or]
  simpa using htr

/-- C9 witness: a two-group configuration processed on a small world. -/
theorem sortAllTabs_priority_order_witness :
    List.Pairwise (fun a b : Group => a.priority ≤ b.priority)
      (sortGroupsByPriority [⟨"y", ["b"], 1, "simple"⟩, ⟨"x", ["a"], 0, "simple"⟩]) ∧
    (sortGroupsByPriority [⟨"y", ["b"], 1, "simple"⟩, ⟨"x", ["a"], 0, "simple"⟩]).Perm
      [⟨"y", ["b"], 1, "simple"⟩, ⟨"x", ["a"], 0, "simple"⟩] ∧
    ∃ segs : List (List Ev),
      segs.length = (sortGroupsByPriority
        [⟨"y", ["b"], 1, "simple"⟩, ⟨"x", ["a"], 0, "simple"⟩]).length ∧
      (sortAllTabs (fun _ => none)
        (Config.mk true [⟨"y", ["b"], 1, "simple"⟩, ⟨"x", ["a"], 0, "simple"⟩] none)
        ⟨[⟨1, "normal"⟩], [⟨10, 1, some "http://a", some "a"⟩], []⟩).2.2 =
        (List.zipWith (fun (g : Group) (s : List Ev) => Ev.groupStart g.name :: s)
          (sortGroupsByPriority [⟨"y", ["b"], 1, "simple"⟩, ⟨"x", ["a"], 0, "simple"⟩])
          segs).flatten :=
  sortAllTabs_priority_order (fun _ => none)
    (Config.mk true [⟨"y", ["b"], 1, "simple"⟩, ⟨"x", ["a"], 0, "simple"⟩] none)
    ⟨[⟨1, "normal"⟩], [⟨10, 1, some "http://a", some "a"⟩], []⟩ rfl (by decide)

theorem lookupB_deleteB_ne {b : Bindings} {k k' : Nat} (h : k ≠ k') :
    lookupB (deleteB b k') k = lookupB b k := by
  induction b with
  | nil => rfl
  | cons e rest ih =>
    obtain ⟨w, g⟩ := e
    by_cases hw : w = k'
    · have hwk : ¬ w = k := fun hh => h (hh ▸ hw)
      have hk'k : ¬ k' = k := fun hh => h hh.symm
      simp [deleteB, hw, lookupB, hwk, hk'k, ih]
    · by_cases hk : w = k
      · simp [deleteB, hw, lookupB, hk, h]
      · simp [deleteB, hw, lookupB, hk, ih]

theorem findWFGAux_lookup_live (live : List Nat) (g : String) :
    ∀ (entries : List (Nat × String)) (b : Bindings) (k : Nat), k ∈ live →
      lookupB (findWFGAux live g entries b).2 k = lookupB b k := by
  intro entries
  induction entries with
  | nil => intro b k hk; rfl
  | cons e rest ih =>
    intro b k hk
    obtain ⟨wid, gn⟩ := e
    by_cases hg : gn = g
    · by_cases hl : wid ∈ live
      · simp [findWFGAux, hg, hl]
      · have hne : k ≠ wid := fun hkw => hl (hkw ▸ hk)
        rw [show findWFGAux live g ((wid, gn) :: rest) b =
          findWFGAux live g rest (deleteB b wid) by simp [findWFGAux, hg, hl]]
        rw [ih (deleteB b wid) k hk, lookupB_deleteB_ne hne]
    · rw [show findWFGAux live g ((wid, gn) :: rest) b =
        findWFGAux live g rest b by simp [findWFGAux, hg]]
      exact ih b k hk

theorem findWindowForGroup_windows (wld : World) (gName : String) :
    (findWindowForGroup wld gName).2.windows = wld.windows := rfl

theorem findWindowForGroup_tabs (wld : World) (gName : String) :
    (findWindowForGroup wld gName).2.tabs = wld.tabs := rfl

theorem findWindowForGroup_lookup_live (wld : World) (gName : String) (k : Nat)
    (hk : k ∈ liveWindowIds wld.windows) :
    lookupB (findWindowForGroup wld gName).2.bindings k = lookupB wld.bindings k :=
  findWFGAux_lookup_live (liveWindowIds wld.windows) gName wld.bindings wld.bindings k hk

theorem moveTabInList_map_id (tabs : List Tab) (tid tw : Nat) :
    (moveTabInList tabs tid tw).map Tab.id = tabs.map Tab.id := by
  unfold moveTabInList
  rw [List.map_map]
  apply List.map_congr_left
  intro t ht
  simp only [Function.comp]
  by_cases h : t.id = tid <;> simp [h]

theorem mem_moveTabInList_ne {tabs : List Tab} {tid tw : Nat} {t' : Tab}
    (h : t' ∈ moveTabInList tabs tid tw) (hne : t'.id ≠ tid) : t' ∈ tabs := by
  rcases List.mem_map.mp h with ⟨t0, ht0, heq⟩
  by_cases h0 : t0.id = tid
  · rw [if_pos h0] at heq
    exfalso
    apply hne
    rw [← heq]
    exact h0
  · rw [if_neg h0] at heq
    exact heq ▸ ht0

theorem processMoves_cons_noTab (g : Group) (c : Tab) (rest : List Tab) (wld : World)
    (m : Nat) (evs : List Ev)
    (hget : getTab (findWindowForGroup wld g.name).2.tabs c.id = none) :
    processMoves g (c :: rest) wld m evs =
      processMoves g rest (findWindowForGroup wld g.name).2 m evs := by
  simp [processMoves, hget]

theorem processMoves_cons_noTarget (g : Group) (c : Tab) (rest : List Tab) (wld : World)
    (m : Nat) (evs : List Ev) (cur : Tab)
    (hget : getTab (findWindowForGroup wld g.name).2.tabs c.id = some cur)
    (htarget : (findWindowForGroup wld g.name).1 = none) :
    processMoves g (c :: rest) wld m evs =
      processMoves g rest (findWindowForGroup wld g.name).2 m evs := by
  simp [processMoves, hget, htarget]

theorem processMoves_cons_sameWin (g : Group) (c : Tab) (rest : List Tab) (wld : World)
    (m : Nat) (evs : List Ev) (cur : Tab) (tw : Nat)
    (hget : getTab (findWindowForGroup wld g.name).2.tabs c.id = some cur)
    (htarget : (findWindowForGroup wld g.name).1 = some tw)
    (hsame : ¬ tw ≠ cur.windowId) :
    processMoves g (c :: rest) wld m evs =
      processMoves g rest (findWindowForGroup wld g.name).2 m evs := by
  simp [processMoves, hget, htarget, hsame]

theorem processMoves_cons_move (g : Group) (c : Tab) (rest : List Tab) (wld : World)
    (m : Nat) (evs : List Ev) (cur : Tab) (tw : Nat)
    (hget : getTab (findWindowForGroup wld g.name).2.tabs c.id = some cur)
    (htarget : (findWindowForGroup wld g.name).1 = some tw)
    (hne : tw ≠ cur.windowId) :
    processMoves g (c :: rest) wld m evs =
      processMoves g rest
        (World.mk (findWindowForGroup wld g.name).2.windows
          (moveTabInList (findWindowForGroup wld g.name).2.tabs c.id tw)
          (findWindowForGroup wld g.name).2.bindings)
        (m + 1) (evs ++ [Ev.moveTab c.id tw]) := by
  simp [processMoves, hget, htarget, hne]

theorem processMoves_windows (g : Group) :
    ∀ (cands : List Tab) (wld : World) (m : Nat) (evs : List Ev),
      (processMoves g cands wld m evs).1.windows = wld.windows := by
  intro cands
  induction cands with
  | nil => intro wld m evs; rfl
  | cons c rest ih =>
    intro wld m evs
    cases hget : getTab (findWindowForGroup wld g.name).2.tabs c.id with
    | none =>
      rw [processMoves_cons_noTab g c rest wld m evs hget]
      exact ih _ _ _
    | some cur =>
      cases htarget : (findWindowForGroup wld g.name).1 with
      | none =>
        rw [processMoves_cons_noTarget g c rest wld m evs cur hget htarget]
        exact ih _ _ _
      | some tw =>
        by_cases hne : tw ≠ cur.windowId
        · rw [processMoves_cons_move g c rest wld m evs cur tw hget htarget hne]
          exact ih _ _ _
        · rw [processMoves_cons_sameWin g c rest wld m evs cur tw hget htarget hne]
          exact ih _ _ _

theorem processMoves_map_id (g : Group) :
    ∀ (cands : List Tab) (wld : World) (m : Nat) (evs : List Ev),
      (processMoves g cands wld m evs).1.tabs.map Tab.id = wld.tabs.map Tab.id := by
  intro cands
  induction cands with
  | nil => intro wld m evs; rfl
  | cons c rest ih =>
    intro wld m evs
    cases hget : getTab (findWindowForGroup wld g.name).2.tabs c.id with
    | none =>
      rw [processMoves_cons_noTab g c rest wld m evs hget]
      exact ih _ _ _
    | some cur =>
      cases htarget : (findWindowForGroup wld g.name).1 with
      | none =>
        rw [processMoves_cons_noTarget g c rest wld m evs cur hget htarget]
        exact ih _ _ _
      | some tw =>
        by_cases hne : tw ≠ cur.windowId
        · rw [processMoves_cons_move g c rest wld m evs cur tw hget htarget hne, ih]
          exact moveTabInList_map_id _ _ _
        · rw [processMoves_cons_sameWin g c rest wld m evs cur tw hget htarget hne]
          exact ih _ _ _

theorem processMoves_lookup_live (g : Group) :
    ∀ (cands : List Tab) (wld : World) (m : Nat) (evs : List Ev) (k : Nat),
      k ∈ liveWindowIds wld.windows →
      lookupB (processMoves g cands wld m evs).1.bindings k = lookupB wld.bindings k := by
  intro cands
  induction cands with
  | nil => intro wld m evs k hk; rfl
  | cons c rest ih =>
    intro wld m evs k hk
    have hk2 : k ∈ liveWindowIds (findWindowForGroup wld g.name).2.windows := by
      rw [findWindowForGroup_windows]; exact hk
    have hstep := findWindowForGroup_lookup_live wld g.name k hk
    cases hget : getTab (findWindowForGroup wld g.name).2.tabs c.id with
    | none =>
      rw [processMoves_cons_noTab g c rest wld m evs hget]
      exact (ih _ _ _ k hk2).trans hstep
    | some cur =>
      cases htarget : (findWindowForGroup wld g.name).1 with
      | none =>
        rw [processMoves_cons_noTarget g c rest wld m evs cur hget htarget]
        exact (ih _ _ _ k hk2).trans hstep
      | some tw =>
        by_cases hne : tw ≠ cur.windowId
        · rw [processMoves_cons_move g c rest wld m evs cur tw hget htarget hne]
          exact (ih (World.mk (findWindowForGroup wld g.name).2.windows
            (moveTabInList (findWindowForGroup wld g.name).2.tabs c.id tw)
            (findWindowForGroup wld g.name).2.bindings) _ _ k hk2).trans hstep
        · rw [processMoves_cons_sameWin g c rest wld m evs cur tw hget htarget hne]
          exact (ih _ _ _ k hk2).trans hstep

theorem processMoves_tab_fixed (g : Group) :
    ∀ (cands : List Tab) (wld : World) (m : Nat) (evs : List Ev) (tid : Nat),
      (∀ c ∈ cands, c.id ≠ tid) →
      ∀ t' ∈ (processMoves g cands wld m evs).1.tabs, t'.id = tid → t' ∈ wld.tabs := by
  intro cands
  induction cands with
  | nil => intro wld m evs tid hnc t' ht' hid; exact ht'
  | cons c rest ih =>
    intro wld m evs tid hnc t' ht' hid
    have hncr : ∀ c' ∈ rest, c'.id ≠ tid := fun c' hc' =>
      hnc c' (List.mem_cons_of_mem _ hc')
    have hcid : c.id ≠ tid := hnc c (List.mem_cons_self _ _)
    cases hget : getTab (findWindowForGroup wld g.name).2.tabs c.id with
    | none =>
      rw [processMoves_cons_noTab g c rest wld m evs hget] at ht'
      exact ih (findWindowForGroup wld g.name).2 _ _ tid hncr t' ht' hid
    | some cur =>
      cases htarget : (findWindowForGroup wld g.name).1 with
      | none =>
        rw [processMoves_cons_noTarget g c rest wld m evs cur hget htarget] at ht'
        exact ih (findWindowForGroup wld g.name).2 _ _ tid hncr t' ht' hid
      | some tw =>
        by_cases hne : tw ≠ cur.windowId
        · rw [processMoves_cons_move g c rest wld m evs cur tw hget htarget hne] at ht'
          have hmem := ih _ _ _ tid hncr t' ht' hid
          refine mem_moveTabInList_ne hmem ?_
          rw [hid]
          exact fun hh => hcid hh.symm
        · rw [processMoves_cons_sameWin g c rest wld m evs cur tw hget htarget hne] at ht'
          exact ih (findWindowForGroup wld g.name).2 _ _ tid hncr t' ht' hid

theorem mem_collectCandidates {re : RegexEngine} {cfg : Config} {g : Group} :
    ∀ {pws : List (Window × List Tab)} {b : Bindings} {c : Tab},
      c ∈ collectCandidates re cfg g pws b ↔
      ∃ pw ∈ pws, pw.1.wtype = "normal" ∧ c ∈ pw.2 ∧
        tabIsCandidate re cfg g b pw.1.id c = true := by
  intro pws
  induction pws with
  | nil => intro b c; simp [collectCandidates]
  | cons pw rest ih =>
    intro b c
    by_cases hty : pw.1.wtype = "normal"
    · simp only [collectCandidates, if_pos hty, List.mem_append, List.mem_filter, ih,
        List.mem_cons]
      constructor
      · rintro (⟨hc, hcand⟩ | ⟨pw', hpw', h1, h2, h3⟩)
        · exact ⟨pw, Or.inl rfl, hty, hc, hcand⟩
        · exact ⟨pw', Or.inr hpw', h1, h2, h3⟩
      · rintro ⟨pw', hpw', h1, h2, h3⟩
        rcases hpw' with hpw' | hpw'
        · subst hpw'
          exact Or.inl ⟨h2, h3⟩
        · exact Or.inr ⟨pw', hpw', h1, h2, h3⟩
    · simp only [collectCandidates, if_neg hty, List.nil_append, ih, List.mem_cons]
      constructor
      · rintro ⟨pw', hpw', h1, h2, h3⟩
        exact ⟨pw', Or.inr hpw', h1, h2, h3⟩
      · rintro ⟨pw', hpw', h1, h2, h3⟩
        rcases hpw' with hpw' | hpw'
        · subst hpw'
          exact absurd h1 hty
        · exact ⟨pw', hpw', h1, h2, h3⟩

theorem mem_populate {wld : World} {pw : Window × List Tab}
    (h : pw ∈ populate wld) :
    pw.1 ∈ wld.windows ∧ pw.2 = wld.tabs.filter (fun t => decide (t.windowId = pw.1.id)) := by
  rcases List.mem_map.mp h with ⟨w, hw, heq⟩
  subst heq
  exact ⟨hw, rfl⟩

theorem find?_name_of_nodup {gs : List Group} {gm : Group}
    (hnd : (gs.map Group.name).Nodup) (hmem : gm ∈ gs) :
    gs.find? (fun h => decide (h.name = gm.name)) = some gm := by
  induction gs with
  | nil => simp at hmem
  | cons x rest ih =>
    rcases List.mem_cons.mp hmem with hx | hx
    · subst hx
      simp [List.find?_cons]
    · have hnd2 : (∀ y ∈ rest, ¬ y.name = x.name) ∧ (rest.map Group.name).Nodup := by
        simpa using hnd
      by_cases hname : x.name = gm.name
      · exact absurd hname.symm (hnd2.1 gm hx)
      · rw [List.find?_cons]
        have hdec : (decide (x.name = gm.name)) = false := by simp [hname]
        rw [hdec]
        exact ih hnd2.2 hx

theorem nodup_id_unique {tabs : List Tab} {t t' : Tab}
    (hnd : (tabs.map Tab.id).Nodup) (ht : t ∈ tabs) (ht' : t' ∈ tabs)
    (hid : t'.id = t.id) : t' = t := by
  induction tabs with
  | nil => simp at ht
  | cons x rest ih =>
    have hnd2 : (∀ y ∈ rest, ¬ y.id = x.id) ∧ (rest.map Tab.id).Nodup := by
      simpa using hnd
    rcases List.mem_cons.mp ht with hx | hx <;>
      rcases List.mem_cons.mp ht' with hx' | hx'
    · rw [hx, hx']
    · exact absurd (hid.trans (congrArg Tab.id hx)) (hnd2.1 t' hx')
    · exact absurd (hid.symm.trans (congrArg Tab.id hx')) (hnd2.1 t hx)
    · exact ih hnd2.2 hx hx'

theorem collectCandidates_eq_nil (re : RegexEngine) (cfg : Config) (wld0 wld : World)
    (g : Group) (hg : g ∈ cfg.groups)
    (hnames : (cfg.groups.map Group.name).Nodup)
    (hnempty : ∀ g' ∈ cfg.groups, g'.name ≠ "")
    (hsit : Settled re cfg wld0)
    (htabs : wld.tabs = wld0.tabs)
    (hwins : wld.windows = wld0.windows)
    (hbind : ∀ k ∈ liveWindowIds wld0.windows,
      lookupB wld.bindings k = lookupB wld0.bindings k) :
    collectCandidates re cfg g (populate wld) wld.bindings = [] := by
  rw [List.eq_nil_iff_forall_not_mem]
  intro c hc
  rcases mem_collectCandidates.mp hc with ⟨pw, hpw, hty, hcpw, hcand⟩
  have hmemW := (mem_populate hpw).1
  rw [(mem_populate hpw).2] at hcpw
  have hcT : c ∈ wld.tabs := (List.mem_filter.mp hcpw).1
  have hcw : c.windowId = pw.1.id := by
    simpa using (List.mem_filter.mp hcpw).2
  simp only [tabIsCandidate, Bool.and_eq_true, Bool.not_eq_true',
    decide_eq_false_iff_not] at hcand
  obtain ⟨⟨⟨hurl, hmatch⟩, hsame⟩, hpri⟩ := hcand
  have hcT0 : c ∈ wld0.tabs := htabs ▸ hcT
  obtain ⟨gm, hgm, hgmMatch, hgmBind, hgmMin⟩ := hsit c hcT0 g hg hmatch
  have hlive : pw.1.id ∈ liveWindowIds wld0.windows := by
    rw [← hwins]
    exact List.mem_map.mpr ⟨pw.1, hmemW, rfl⟩
  have hlook : lookupB wld.bindings pw.1.id = some gm.name := by
    rw [hbind _ hlive, ← hcw]
    exact hgmBind
  by_cases heq : g.name = gm.name
  · exact hsame (by rw [hlook, heq])
  · have hgmpri : gm.priority < g.priority :=
      hgmMin g hg heq hmatch
    have hname : ¬ gm.name = "" := hnempty gm hgm
    have hskip : skipByPriority cfg g (lookupB wld.bindings pw.1.id) = true := by
      rw [hlook]
      simp only [skipByPriority, if_neg hname]
      rw [find?_name_of_nodup hnames hgm]
      simpa using hgmpri
    exact Bool.false_ne_true (hpri.symm.trans hskip)

theorem processGroups_settled (re : RegexEngine) (cfg : Config) (wld0 : World)
    (hnames : (cfg.groups.map Group.name).Nodup)
    (hnempty : ∀ g' ∈ cfg.groups, g'.name ≠ "")
    (hsit : Settled re cfg wld0) :
    ∀ (gs : List Group), (∀ g ∈ gs, g ∈ cfg.groups) →
      ∀ (wld : World) (m : Nat) (evs : List Ev),
      wld.tabs = wld0.tabs → wld.windows = wld0.windows →
      (∀ k ∈ liveWindowIds wld0.windows,
        lookupB wld.bindings k = lookupB wld0.bindings k) →
      (processGroups re cfg gs wld m evs).1.moved = m ∧
      (processGroups re cfg gs wld m evs).2.2 =
        evs ++ gs.map (fun g => Ev.groupStart g.name) := by
  intro gs
  induction gs with
  | nil =>
    intro hsub wld m evs htabs hwins hbind
    exact ⟨rfl, by simp [processGroups]⟩
  | cons g rest ih =>
    intro hsub wld m evs htabs hwins hbind
    have hcands : collectCandidates re cfg g (populate wld) wld.bindings = [] :=
      collectCandidates_eq_nil re cfg wld0 wld g (hsub g (List.mem_cons_self _ _))
        hnames hnempty hsit htabs hwins hbind
    have hpg : processGroup re cfg g wld = ((findWindowForGroup wld g.name).2, 0, []) := by
      simp [processGroup, hcands, processMoves]
    have hbind2 : ∀ k ∈ liveWindowIds wld0.windows,
        lookupB (findWindowForGroup wld g.name).2.bindings k = lookupB wld0.bindings k := by
      intro k hk
      have hk' : k ∈ liveWindowIds wld.windows := by rw [hwins]; exact hk
      rw [findWindowForGroup_lookup_live wld g.name k hk']
      exact hbind k hk
    have ihr := ih (fun g' hg' => hsub g' (List.mem_cons_of_mem _ hg'))
      (findWindowForGroup wld g.name).2 (m + 0)
      (evs ++ (Ev.groupStart g.name :: []))
      htabs hwins hbind2
    simp only [processGroups, hpg]
    refine ⟨by simpa using ihr.1, ?_⟩
    rw [ihr.2]
    simp

/-- Amended C5: For every state in which each tab that matches at least
one group sits in the window bound to a matched group whose priority is
strictly smallest among the groups the tab matches (group names being
unique and non-empty), `sortAllTabs` performs no moves and returns a
result with `moved = 0`. -/
theorem sortAllTabs_settled_no_moves (re : RegexEngine) (cfg : Config) (wld : World)
    (hnames : (cfg.groups.map Group.name).Nodup)
    (hnempty : ∀ g' ∈ cfg.groups, g'.name ≠ "")
    (hsit : Settled re cfg wld) :
    (sortAllTabs re cfg wld).1.moved = 0 ∧
    ∀ i tw, Ev.moveTab i tw ∉ (sortAllTabs re cfg wld).2.2 := by
  by_cases hskip : !cfg.enabled || cfg.groups.isEmpty
  · simp [sortAllTabs, hskip]
  · have hrun : sortAllTabs re cfg wld =
        processGroups re cfg (sortGroupsByPriority cfg.groups) wld 0 [] := by
      simp [sortAllTabs, hskip]
    have hsub : ∀ g ∈ sortGroupsByPriority cfg.groups, g ∈ cfg.groups := fun g hg =>
      (sortGroupsByPriority_perm cfg.groups).mem_iff.mp hg
    have h := processGroups_settled re cfg wld hnames hnempty hsit
      (sortGroupsByPriority cfg.groups) hsub wld 0 [] rfl rfl (fun k hk => rfl)
    rw [hrun]
    refine ⟨h.1, ?_⟩
    intro i tw hmem
    rw [h.2] at hmem
    simp only [List.nil_append, List.mem_map] at hmem
    obtain ⟨g, hg, hgeq⟩ := hmem
    exact Ev.noConfusion hgeq

/-- C5 counterexample: a state in which the only tab *resolves* (via
`findMatchingGroup`, the title-priority policy) to group `"A"` and sits
in the window bound to `"A"`, yet `sortAllTabs` — which batches by
configured numeric priority, not by the resolver's policy — still moves
it and reports `moved = 1`: group `"B"` has the smaller priority, matches
the tab's URL, and owns another live window, and the tab's current owner
`"A"` has a larger priority, so the priority-ownership guard does not
protect it.  The claim as stated (resolved group ⇒ `moved = 0`) is
therefore false on the code. -/
theorem sortAllTabs_resolved_group_counterexample :
    findMatchingGroup (fun _ => none)
      (Config.mk true [⟨"A", ["t"], 1, "simple"⟩, ⟨"B", ["u"], 0, "simple"⟩] none)
      (some "http://u") (some "t") = some ⟨"A", ["t"], 1, "simple"⟩ ∧
    lookupB [(100, "A"), (200, "B")] 100 = some "A" ∧
    (sortAllTabs (fun _ => none)
      (Config.mk true [⟨"A", ["t"], 1, "simple"⟩, ⟨"B", ["u"], 0, "simple"⟩] none)
      (World.mk [⟨100, "normal"⟩, ⟨200, "normal"⟩]
        [⟨1, 100, some "http://u", some "t"⟩] [(100, "A"), (200, "B")])).1.moved = 1 :=
  ⟨by decide, by decide, by decide⟩

/-- C5 witness (amended claim): a settled concrete state — the only tab
matches only group `"X"` and sits in the window bound to `"X"` — on which
the pass moves nothing. -/
theorem sortAllTabs_settled_no_moves_witness :
    (sortAllTabs (fun _ => none) (Config.mk true [⟨"X", ["foo"], 0, "simple"⟩] none)
      (World.mk [⟨100, "normal"⟩] [⟨1, 100, some "http://foo", some "pg"⟩]
        [(100, "X")])).1.moved = 0 ∧
    ∀ i tw, Ev.moveTab i tw ∉
      (sortAllTabs (fun _ => none) (Config.mk true [⟨"X", ["foo"], 0, "simple"⟩] none)
        (World.mk [⟨100, "normal"⟩] [⟨1, 100, some "http://foo", some "pg"⟩]
          [(100, "X")])).2.2 :=
  sortAllTabs_settled_no_moves (fun _ => none)
    (Config.mk true [⟨"X", ["foo"], 0, "simple"⟩] none)
    (World.mk [⟨100, "normal"⟩] [⟨1, 100, some "http://foo", some "pg"⟩] [(100, "X")])
    (by decide) (by decide) (by unfold Settled; decide)

/-- C2: For groups `g1` (priority `p1`) and `g2` (priority `p2`) with
`p1 < p2` making up the configuration, a tab that matches both groups
and sits in the live window bound to `g1` is never moved by a
`sortAllTabs` pass: every record with its id in the final world still
has its original window.  In particular, when `g2` is unbound and the
tab is the only one matching either group, the pass reports `moved = 0`. -/
theorem sortAllTabs_priority_ownership (re : RegexEngine) (g1 g2 : Group)
    (cfg : Config) (wld : World) (t : Tab)
    (hgroups : cfg.groups = [g1, g2] ∨ cfg.groups = [g2, g1])
    (hen : cfg.enabled = true)
    (hp : g1.priority < g2.priority)
    (hnames : g1.name ≠ g2.name)
    (hname1 : g1.name ≠ "")
    (ht : t ∈ wld.tabs)
    (hm1 : tabMatchesGroup re t.url t.title g1 = true)
    (hm2 : tabMatchesGroup re t.url t.title g2 = true)
    (hbound : lookupB wld.bindings t.windowId = some g1.name)
    (hlive : t.windowId ∈ liveWindowIds wld.windows)
    (hnd : (wld.tabs.map Tab.id).Nodup) :
    (∀ t' ∈ (sortAllTabs re cfg wld).2.1.tabs, t'.id = t.id →
      t'.windowId = t.windowId) ∧
    ((∀ u ∈ wld.tabs, (tabMatchesGroup re u.url u.title g1 = true ∨
        tabMatchesGroup re u.url u.title g2 = true) → u = t) →
      (∀ e ∈ wld.bindings, e.2 ≠ g2.name) →
      (sortAllTabs re cfg wld).1.moved = 0) := by
  have hsorted : sortGroupsByPriority cfg.groups = [g1, g2] := by
    rcases hgroups with h | h
    · rw [h]
      simp [sortGroupsByPriority, insertByPriority, not_lt.mpr (le_of_lt hp)]
    · rw [h]
      simp [sortGroupsByPriority, insertByPriority, hp]
  have hemp : cfg.groups.isEmpty = false := by
    rcases hgroups with h | h <;> simp [h]
  have hrun : sortAllTabs re cfg wld = processGroups re cfg [g1, g2] wld 0 [] := by
    simp [sortAllTabs, hen, hemp, hsorted]
  have hfind1 : cfg.groups.find? (fun h => decide (h.name = g1.name)) = some g1 := by
    rcases hgroups with h | h
    · rw [h, List.find?_cons]
      simp
    · rw [h, List.find?_cons]
      have hdec : (decide (g2.name = g1.name)) = false := by
        simp only [decide_eq_false_iff_not]
        exact fun hh => hnames hh.symm
      rw [hdec, List.find?_cons]
      simp
  -- no candidate of the g1 phase carries the protected tab's id
  have hnc1 : ∀ c ∈ collectCandidates re cfg g1 (populate wld) wld.bindings,
      c.id ≠ t.id := by
    intro c hcmem hcid
    rcases mem_collectCandidates.mp hcmem with ⟨pw, hpw, hty, hcpw, hcand⟩
    rw [(mem_populate hpw).2] at hcpw
    have hcT : c ∈ wld.tabs := (List.mem_filter.mp hcpw).1
    have hcw : c.windowId = pw.1.id := by
      simpa using (List.mem_filter.mp hcpw).2
    have hct : c = t := nodup_id_unique hnd ht hcT hcid
    simp only [tabIsCandidate, Bool.and_eq_true, Bool.not_eq_true',
      decide_eq_false_iff_not] at hcand
    obtain ⟨⟨⟨hurl, hmatch⟩, hsame⟩, hpri⟩ := hcand
    apply hsame
    rw [← hcw, hct]
    exact hbound
  -- facts about the world after the g1 phase
  have hw1_windows : (processGroup re cfg g1 wld).1.windows = wld.windows :=
    processMoves_windows g1 _ _ _ _
  have hw1_ids : (processGroup re cfg g1 wld).1.tabs.map Tab.id = wld.tabs.map Tab.id :=
    processMoves_map_id g1 _ _ _ _
  have hw1_lookup : ∀ k ∈ liveWindowIds wld.windows,
      lookupB (processGroup re cfg g1 wld).1.bindings k = lookupB wld.bindings k := by
    intro k hk
    have hk2 : k ∈ liveWindowIds (findWindowForGroup wld g1.name).2.windows := hk
    exact (processMoves_lookup_live g1 _ _ _ _ k hk2).trans
      (findWindowForGroup_lookup_live wld g1.name k hk)
  have hw1_fixed : ∀ t' ∈ (processGroup re cfg g1 wld).1.tabs, t'.id = t.id →
      t' ∈ wld.tabs := by
    intro t' ht' hid
    exact processMoves_tab_fixed g1 _ (findWindowForGroup wld g1.name).2 _ _ t.id
      hnc1 t' ht' hid
  -- no candidate of the g2 phase carries the protected tab's id either
  have hnc2 : ∀ c ∈ collectCandidates re cfg g2
      (populate (processGroup re cfg g1 wld).1)
      (processGroup re cfg g1 wld).1.bindings, c.id ≠ t.id := by
    intro c hcmem hcid
    rcases mem_collectCandidates.mp hcmem with ⟨pw, hpw, hty, hcpw, hcand⟩
    rw [(mem_populate hpw).2] at hcpw
    have hcT1 : c ∈ (processGroup re cfg g1 wld).1.tabs := (List.mem_filter.mp hcpw).1
    have hcw : c.windowId = pw.1.id := by
      simpa using (List.mem_filter.mp hcpw).2
    have hcT : c ∈ wld.tabs := hw1_fixed c hcT1 hcid
    have hct : c = t := nodup_id_unique hnd ht hcT hcid
    have hpwlive : pw.1.id ∈ liveWindowIds wld.windows := by
      rw [← hcw, hct]
      exact hlive
    have hlook : lookupB (processGroup re cfg g1 wld).1.bindings pw.1.id =
        some g1.name := by
      rw [hw1_lookup pw.1.id hpwlive, ← hcw, hct]
      exact hbound
    simp only [tabIsCandidate, Bool.and_eq_true, Bool.not_eq_true',
      decide_eq_false_iff_not] at hcand
    obtain ⟨⟨⟨hurl, hmatch⟩, hsame⟩, hpri⟩ := hcand
    have hskip : skipByPriority cfg g2
        (lookupB (processGroup re cfg g1 wld).1.bindings pw.1.id) = true := by
      rw [hlook]
      simp only [skipByPriority, if_neg hname1]
      rw [hfind1]
      simpa using hp
    exact Bool.false_ne_true (hpri.symm.trans hskip)
  constructor
  · intro t' ht' hid
    rw [hrun] at ht'
    have ht'2 : t' ∈ (processGroup re cfg g2 (processGroup re cfg g1 wld).1).1.tabs := ht'
    have ht'1 : t' ∈ (processGroup re cfg g1 wld).1.tabs :=
      processMoves_tab_fixed g2 _
        (findWindowForGroup (processGroup re cfg g1 wld).1 g2.name).2 _ _ t.id
        hnc2 t' ht'2 hid
    have ht'0 : t' ∈ wld.tabs := hw1_fixed t' ht'1 hid
    have : t' = t := nodup_id_unique hnd ht ht'0 hid
    rw [this]
  · intro honly hunb
    have hc1nil : collectCandidates re cfg g1 (populate wld) wld.bindings = [] := by
      rw [List.eq_nil_iff_forall_not_mem]
      intro c hc
      rcases mem_collectCandidates.mp hc with ⟨pw, hpw, hty, hcpw, hcand⟩
      rw [(mem_populate hpw).2] at hcpw
      have hcT : c ∈ wld.tabs := (List.mem_filter.mp hcpw).1
      have hmatch : tabMatchesGroup re c.url c.title g1 = true := by
        simp only [tabIsCandidate, Bool.and_eq_true] at hcand
        exact hcand.1.1.2
      have hct : c = t := honly c hcT (Or.inl hmatch)
      exact hnc1 c hc (by rw [hct])
    have hpg1 : processGroup re cfg g1 wld =
        ((findWindowForGroup wld g1.name).2, 0, []) := by
      simp [processGroup, hc1nil, processMoves]
    have hc2nil : collectCandidates re cfg g2
        (populate (processGroup re cfg g1 wld).1)
        (processGroup re cfg g1 wld).1.bindings = [] := by
      rw [List.eq_nil_iff_forall_not_mem]
      intro c hc
      rcases mem_collectCandidates.mp hc with ⟨pw, hpw, hty, hcpw, hcand⟩
      rw [(mem_populate hpw).2] at hcpw
      have hcT1 : c ∈ (processGroup re cfg g1 wld).1.tabs := (List.mem_filter.mp hcpw).1
      have hcT : c ∈ wld.tabs := by
        rw [hpg1] at hcT1
        exact hcT1
      have hmatch : tabMatchesGroup re c.url c.title g2 = true := by
        simp only [tabIsCandidate, Bool.and_eq_true] at hcand
        exact hcand.1.1.2
      have hct : c = t := honly c hcT (Or.inr hmatch)
      exact hnc2 c hc (by rw [hct])
    rw [hpg1] at hc2nil
    have hpg2 : processGroup re cfg g2 (findWindowForGroup wld g1.name).2 =
        ((findWindowForGroup (findWindowForGroup wld g1.name).2 g2.name).2, 0, []) := by
      simp [processGroup, hc2nil, processMoves]
    rw [hrun]
    simp [processGroups, hpg1, hpg2]

/-- C2 witness: the claim's scenario — group `"X"` (priority 0) bound to
window 100, group `"Y"` (priority 1) unbound, the only matching tab
sitting in window 100 — the tab stays and the pass reports `moved = 0`. -/
theorem sortAllTabs_priority_ownership_witness :
    (∀ t' ∈ (sortAllTabs (fun _ => none)
        (Config.mk true [⟨"X", ["foo"], 0, "simple"⟩, ⟨"Y", ["fo"], 1, "simple"⟩] none)
        (World.mk [⟨100, "normal"⟩] [⟨1, 100, some "http://foo", some "z"⟩]
          [(100, "X")])).2.1.tabs,
      t'.id = 1 → t'.windowId = 100) ∧
    (sortAllTabs (fun _ => none)
      (Config.mk true [⟨"X", ["foo"], 0, "simple"⟩, ⟨"Y", ["fo"], 1, "simple"⟩] none)
      (World.mk [⟨100, "normal"⟩] [⟨1, 100, some "http://foo", some "z"⟩]
        [(100, "X")])).1.moved = 0 := by
  have h := sortAllTabs_priority_ownership (fun _ => none)
    ⟨"X", ["foo"], 0, "simple"⟩ ⟨"Y", ["fo"], 1, "simple"⟩
    (Config.mk true [⟨"X", ["foo"], 0, "simple"⟩, ⟨"Y", ["fo"], 1, "simple"⟩] none)
    (World.mk [⟨100, "normal"⟩] [⟨1, 100, some "http://foo", some "z"⟩] [(100, "X")])
    ⟨1, 100, some "http://foo", some "z"⟩
    (Or.inl rfl) rfl (by decide) (by decide) (by decide) (by decide)
    (by decide) (by decide) (by decide) (by decide) (by decide)
  exact ⟨fun t' ht' hid => h.1 t' ht' hid, h.2 (by decide) (by decide)⟩

theorem rebindScan_eq (re : RegexEngine) (g : Group) :
    ∀ (pws : List (Window × List Tab)) (nb : Bindings),
      rebindScan re g pws nb =
        if valuesContain nb g.name then nb
        else
          match firstUnclaimedMatchingWindowId re g nb pws with
          | none => nb
          | some wid => setB nb wid g.name := by
  intro pws
  induction pws with
  | nil =>
    intro nb
    by_cases h : valuesContain nb g.name <;>
      simp [rebindScan, firstUnclaimedMatchingWindowId, h]
  | cons pw rest ih =>
    intro nb
    by_cases hval : valuesContain nb g.name
    · rw [rebindScan, if_pos hval, ih, if_pos hval, if_pos hval]
    · by_cases hclaim : (lookupB nb pw.1.id).isSome
      · rw [rebindScan, if_neg hval, if_pos hclaim, ih, if_neg hval, if_neg hval]
        simp [firstUnclaimedMatchingWindowId, hclaim]
      · by_cases hmatch : hasMatchingTab re g pw.2
        · rw [rebindScan, if_neg hval, if_neg hclaim, if_pos hmatch,
            if_neg hval]
          simp [firstUnclaimedMatchingWindowId, hclaim, hmatch]
        · rw [rebindScan, if_neg hval, if_neg hclaim, if_neg hmatch, ih,
            if_neg hval, if_neg hval]
          simp [firstUnclaimedMatchingWindowId, hclaim, hmatch]

theorem rebindLoop_eq_specAssign (re : RegexEngine) :
    ∀ (gs : List Group) (pws : List (Window × List Tab)) (nb : Bindings),
      rebindLoop re gs pws nb = specAssign re gs pws nb := by
  intro gs
  induction gs with
  | nil => intro pws nb; rfl
  | cons g rest ih =>
    intro pws nb
    rw [rebindLoop, specAssign, ih, rebindScan_eq]

/-- Amended C7: For every enabled configuration with a non-empty group
list, `rebindWindowsOnStartup` builds, from empty, exactly the assignment
that gives each group, in configured order (skipping a group already
claimed), the first live window *not already claimed in this pass* that
contains a tab with a non-empty URL or title match; in the `"3003"`
scenario the single window is bound to `"3003"` (see the witness). -/
theorem rebindWindowsOnStartup_spec (re : RegexEngine) (cfg : Config) (wld : World)
    (hen : cfg.enabled = true) (hne : cfg.groups ≠ []) :
    (rebindWindowsOnStartup re cfg wld).bindings =
      specAssign re cfg.groups (populate wld) [] := by
  have hemp : cfg.groups.isEmpty = false := by
    cases hgs : cfg.groups with
    | nil => exact absurd hgs hne
    | cons a l => simp
  simp [rebindWindowsOnStartup, hen, hemp, rebindLoop_eq_specAssign]

/-- C7 counterexample: two groups `"X"` and `"Y"` share the pattern
`"a"`, two live windows both contain a matching tab.  Group `"Y"`'s first
live window with a matching tab is window 1, but after the pass window 1
is bound to `"X"` and `"Y"` holds window 2 — the code binds each group to
the first *unclaimed* matching window, not the first matching window as
the claim's general clause states. -/
theorem rebind_first_window_counterexample :
    firstMatchingWindowId (fun _ => none) ⟨"Y", ["a"], 1, "simple"⟩
      (populate (World.mk [⟨1, "normal"⟩, ⟨2, "normal"⟩]
        [⟨11, 1, some "a", some "a"⟩, ⟨12, 2, some "a", some "a"⟩] [])) = some 1 ∧
    lookupB (rebindWindowsOnStartup (fun _ => none)
      (Config.mk true [⟨"X", ["a"], 0, "simple"⟩, ⟨"Y", ["a"], 1, "simple"⟩] none)
      (World.mk [⟨1, "normal"⟩, ⟨2, "normal"⟩]
        [⟨11, 1, some "a", some "a"⟩, ⟨12, 2, some "a", some "a"⟩] [])).bindings 1
      = some "X" ∧
    lookupB (rebindWindowsOnStartup (fun _ => none)
      (Config.mk true [⟨"X", ["a"], 0, "simple"⟩, ⟨"Y", ["a"], 1, "simple"⟩] none)
      (World.mk [⟨1, "normal"⟩, ⟨2, "normal"⟩]
        [⟨11, 1, some "a", some "a"⟩, ⟨12, 2, some "a", some "a"⟩] [])).bindings 2
      = some "Y" :=
  ⟨by decide, by decide, by decide⟩

/-- C7 witness: the claim's scenario — no prior bindings, one window with
a tab titled `"Feature branch - 3003"`, one simple-mode group `"3003"` —
rebinding follows the spec assignment and maps that window to `"3003"`. -/
theorem rebindWindowsOnStartup_spec_witness :
    (rebindWindowsOnStartup (fun _ => none)
      (Config.mk true [⟨"3003", ["3003"], 0, "simple"⟩] none)
      (World.mk [⟨1, "normal"⟩]
        [⟨10, 1, some "http://x", some "Feature branch - 3003"⟩] [])).bindings =
      specAssign (fun _ => none) [⟨"3003", ["3003"], 0, "simple"⟩]
        (populate (World.mk [⟨1, "normal"⟩]
          [⟨10, 1, some "http://x", some "Feature branch - 3003"⟩] [])) [] ∧
    lookupB (rebindWindowsOnStartup (fun _ => none)
      (Config.mk true [⟨"3003", ["3003"], 0, "simple"⟩] none)
      (World.mk [⟨1, "normal"⟩]
        [⟨10, 1, some "http://x", some "Feature branch - 3003"⟩] [])).bindings 1
      = some "3003" :=
  ⟨rebindWindowsOnStartup_spec (fun _ => none)
    (Config.mk true [⟨"3003", ["3003"], 0, "simple"⟩] none)
    (World.mk [⟨1, "normal"⟩]
      [⟨10, 1, some "http://x", some "Feature branch - 3003"⟩] [])
    rfl (by decide), by decide⟩

end TS
